import Mathlib

/-!
Verification of the Connect 4 terminal game (`src/conecta4.js`).

The board is a 6×7 grid of cells holding 0 (empty), 1 (player one) or
2 (player two).  `askMove` reads a column, validates it, drops a piece
at the lowest empty row of that column, then checks for a win at the
landing cell, then for a full board, and otherwise toggles the player.
-/

namespace Conecta4

abbrev ROWS : Nat := 6
abbrev COLS : Nat := 7

/-- The grid: 6 rows × 7 columns of cells, `0` empty, `1`/`2` the players.
Row 0 is the top, row 5 the bottom (as in the JS array). -/
abbrev Board := Fin ROWS → Fin COLS → Nat

/-- `Array.from({length: ROWS}, () => Array(COLS).fill(0))`. -/
def emptyBoard : Board := fun _ _ => 0

/-- Reading `board[r][c]` at integer coordinates; the JS code only reads
in bounds (it guards with `r >= 0 && r < ROWS && c >= 0 && c < COLS`),
out-of-bounds reads return a default 0. -/
def getCell (b : Board) (r c : Int) : Nat :=
  if h : 0 ≤ r ∧ r < (ROWS : Int) ∧ 0 ≤ c ∧ c < (COLS : Int) then
    b ⟨r.toNat, by omega⟩ ⟨c.toNat, by omega⟩
  else 0

/-- The condition of the `while` loop in `countDirection`:
`r >= 0 && r < ROWS && c >= 0 && c < COLS && board[r][c] === player`. -/
def cellOk (b : Board) (p : Nat) (r c : Int) : Prop :=
  0 ≤ r ∧ r < (ROWS : Int) ∧ 0 ≤ c ∧ c < (COLS : Int) ∧ getCell b r c = p

instance (b : Board) (p : Nat) (r c : Int) : Decidable (cellOk b p r c) := by
  unfold cellOk; infer_instance

/-- The `while` loop body of `countDirection`, counting matching cells
starting at `(r, c)` and stepping by `(dr, dc)`.  The loop strictly
advances in the grid each iteration, so `ROWS + COLS` fuel is never
exhausted before the condition fails. -/
def countLoop (b : Board) (p : Nat) (dr dc : Int) : Nat → Int → Int → Nat
  | 0, _, _ => 0
  | fuel + 1, r, c =>
    if cellOk b p r c then countLoop b p dr dc fuel (r + dr) (c + dc) + 1
    else 0

/-- `countDirection(r, c, dr, dc, player)`: first advances by `(dr, dc)`
and then counts consecutive cells equal to `player`. -/
def countDirection (b : Board) (r c dr dc : Int) (p : Nat) : Nat :=
  countLoop b p dr dc (ROWS + COLS) (r + dr) (c + dc)

/-- The four direction vectors of `checkWin`. -/
def directions : List (Int × Int) := [(0, 1), (1, 0), (1, 1), (1, -1)]

/-- `checkWin(row, col, player)`: for each direction, `count = 1 +
countDirection(row, col, dr, dc, player) + countDirection(row, col, -dr,
-dc, player)`; returns true iff some direction reaches `count >= 4`. -/
def checkWin (b : Board) (row col : Int) (p : Nat) : Bool :=
  directions.any fun d =>
    decide (4 ≤ 1 + countDirection b row col d.1 d.2 p
              + countDirection b row col (-d.1) (-d.2) p)

/-- `isBoardFull()`: `board.every(row => row.every(cell => cell !== 0))`. -/
def isBoardFull (b : Board) : Bool :=
  (List.finRange ROWS).all fun r => (List.finRange COLS).all fun c => b r c != 0

/-- The scan `for (let r = ROWS - 1; r >= 0; r--)` of `askMove`,
restricted to rows `< n`: returns the first row index (from the bottom
upward) whose cell in column `c` is empty. -/
def findDropFrom (b : Board) (c : Fin COLS) : Nat → Option (Fin ROWS)
  | 0 => none
  | r + 1 =>
    if h : r < ROWS then
      if b ⟨r, h⟩ c = 0 then some ⟨r, h⟩ else findDropFrom b c r
    else findDropFrom b c r

/-- The full scan, from row `ROWS - 1` down to row 0. -/
def findDrop (b : Board) (c : Fin COLS) : Option (Fin ROWS) :=
  findDropFrom b c ROWS

/-- `board[r][col] = player`. -/
def setCell (b : Board) (r : Fin ROWS) (c : Fin COLS) (p : Nat) : Board :=
  fun r' c' => if r' = r ∧ c' = c then p else b r' c'

/-- The placement part of `askMove` (lines 40–58): scan column `c` from
the bottom; on the first empty cell set it to `p` and return the updated
board with the landing row; if none is empty the column is full
(`Columna llena`) and nothing changes. -/
def dropPiece (b : Board) (c : Fin COLS) (p : Nat) : Option (Board × Fin ROWS) :=
  match findDrop b c with
  | none => none
  | some r => some (setCell b r c p, r)

/-- `currentPlayer = currentPlayer === 1 ? 2 : 1`. -/
def toggle (p : Nat) : Nat := if p = 1 then 2 else 1

/-- `const col = parseInt(input) - 1; if (isNaN(col) || col < 0 || col >=
COLS)`: the parsed input is `none` for non-numeric text, `some n` for the
integer `n`; a valid input yields the 0-based column index `n - 1`. -/
def parseCol : Option Int → Option (Fin COLS)
  | none => none
  | some n =>
    if h : 0 ≤ n - 1 ∧ n - 1 < (COLS : Int) then some ⟨(n - 1).toNat, by omega⟩
    else none

/-- The mutable globals of the program: `board`, `currentPlayer`,
`playing`. -/
structure GameState where
  board : Board
  currentPlayer : Nat
  playing : Bool

/-- One invocation of the `rl.question` callback in `askMove`, given the
parsed input line: invalid or full columns leave everything unchanged
and re-prompt; a successful drop checks `checkWin`, then `isBoardFull`,
and otherwise toggles the player.  When `playing` is false `askMove`
only closes the interface. -/
def step (s : GameState) (input : Option Int) : GameState :=
  if s.playing then
    match parseCol input with
    | none => s
    | some c =>
      match dropPiece s.board c s.currentPlayer with
      | none => s
      | some (b', r) =>
        if checkWin b' (r : Int) (c : Int) s.currentPlayer then
          { board := b', currentPlayer := s.currentPlayer, playing := false }
        else if isBoardFull b' then
          { board := b', currentPlayer := s.currentPlayer, playing := false }
        else
          { board := b', currentPlayer := toggle s.currentPlayer, playing := true }
  else s

/-- Iterating the turn loop over a list of input lines. -/
def runSteps (s : GameState) : List (Option Int) → GameState
  | [] => s
  | i :: is => runSteps (step s i) is

/-- `n` successive drops into column `c` by player `p`; `none` as soon as
one fails. -/
def dropRep (c : Fin COLS) (p : Nat) : Nat → Board → Option Board
  | 0, b => some b
  | n + 1, b =>
    match dropPiece b c p with
    | none => none
    | some (b', _) => dropRep c p n b'

/-- A 4-in-a-row for `p` through `(row, col)`: four contiguous cells of
the grid, all equal to `p`, aligned along one of the four direction
vectors, the placed cell among them. -/
def hasWindow (b : Board) (row col : Int) (p : Nat) : Prop :=
  ∃ d ∈ directions, ∃ a : Int, a ≤ 0 ∧ 0 ≤ a + 3 ∧
    ∀ i : Int, a ≤ i → i ≤ a + 3 → cellOk b p (row + i * d.1) (col + i * d.2)

/-! Concrete boards used by the closed witnesses. -/

/-- A board whose column 2 is completely full of player-1 pieces. -/
def fullCol2 : Board := fun _ c => if c = (2 : Fin COLS) then 1 else 0

/-- Bottom row: player 1 at columns 0, 1, 2, 3 (a horizontal win). -/
def winBoard : Board := fun r c =>
  if r = (5 : Fin ROWS) ∧ c.val < 4 then 1 else 0

/-- Bottom row: player 1 at columns 0, 1, 2 and player 2 at column 3. -/
def rowBoard : Board := fun r c =>
  if r = (5 : Fin ROWS) ∧ c.val < 3 then 1
  else if r = (5 : Fin ROWS) ∧ c.val = 3 then 2
  else 0

/-! ### Specification of the bottom-up column scan -/

theorem findDropFrom_none_iff (b : Board) (c : Fin COLS) :
    ∀ n, (findDropFrom b c n = none ↔ ∀ r : Fin ROWS, r.val < n → b r c ≠ 0) := by
  intro n
  induction n with
  | zero => simp [findDropFrom]
  | succ n ih =>
    unfold findDropFrom
    by_cases h : n < ROWS
    · simp only [dif_pos h]
      by_cases he : b ⟨n, h⟩ c = 0
      · simp only [if_pos he]
        constructor
        · intro hcontra; exact absurd hcontra (by simp)
        · intro hall; exact absurd he (hall ⟨n, h⟩ (Nat.lt_succ_self n))
      · simp only [if_neg he]
        rw [ih]
        constructor
        · intro hall r hr
          rcases Nat.lt_succ_iff_lt_or_eq.mp hr with h1 | h1
          · exact hall r h1
          · have hre : r = ⟨n, h⟩ := Fin.ext h1
            rw [hre]; exact he
        · intro hall r hr; exact hall r (Nat.lt_succ_of_lt hr)
    · simp only [dif_neg h]
      rw [ih]
      constructor
      · intro hall r hr
        have := r.isLt
        exact hall r (by omega)
      · intro hall r hr; exact hall r (by omega)

theorem findDropFrom_some_spec (b : Board) (c : Fin COLS) :
    ∀ n (r : Fin ROWS), findDropFrom b c n = some r →
      r.val < n ∧ b r c = 0 ∧
        ∀ r' : Fin ROWS, r.val < r'.val → r'.val < n → b r' c ≠ 0 := by
  intro n
  induction n with
  | zero => intro r hr; simp [findDropFrom] at hr
  | succ n ih =>
    intro r hr
    unfold findDropFrom at hr
    by_cases h : n < ROWS
    · rw [dif_pos h] at hr
      by_cases he : b ⟨n, h⟩ c = 0
      · rw [if_pos he] at hr
        have hre : r = ⟨n, h⟩ := by
          have := Option.some.inj hr
          exact this.symm
        subst hre
        refine ⟨by simp, he, ?_⟩
        intro r' h1 h2
        have h1' : n < r'.val := h1
        omega
      · rw [if_neg he] at hr
        obtain ⟨h1, h2, h3⟩ := ih r hr
        refine ⟨by omega, h2, ?_⟩
        intro r' hlt hub
        rcases Nat.lt_succ_iff_lt_or_eq.mp hub with hc | hc
        · exact h3 r' hlt hc
        · have hre : r' = ⟨n, h⟩ := Fin.ext hc
          rw [hre]; exact he
    · rw [dif_neg h] at hr
      obtain ⟨h1, h2, h3⟩ := ih r hr
      refine ⟨by omega, h2, ?_⟩
      intro r' hlt hub
      have := r'.isLt
      exact h3 r' hlt (by omega)

theorem findDrop_none_iff (b : Board) (c : Fin COLS) :
    findDrop b c = none ↔ ∀ r : Fin ROWS, b r c ≠ 0 := by
  rw [findDrop, findDropFrom_none_iff]
  exact ⟨fun h r => h r r.isLt, fun h r _ => h r⟩

theorem findDrop_some_spec (b : Board) (c : Fin COLS) (r : Fin ROWS)
    (h : findDrop b c = some r) :
    b r c = 0 ∧ ∀ r' : Fin ROWS, r.val < r'.val → b r' c ≠ 0 := by
  obtain ⟨_, h2, h3⟩ := findDropFrom_some_spec b c ROWS r h
  exact ⟨h2, fun r' hlt => h3 r' hlt r'.isLt⟩

theorem dropPiece_some_spec (b : Board) (c : Fin COLS) (p : Nat)
    (b' : Board) (r : Fin ROWS) (h : dropPiece b c p = some (b', r)) :
    b' = setCell b r c p ∧ b r c = 0 ∧
      ∀ r' : Fin ROWS, r.val < r'.val → b r' c ≠ 0 := by
  unfold dropPiece at h
  cases hf : findDrop b c with
  | none => rw [hf] at h; simp at h
  | some r0 =>
    rw [hf] at h
    have h' := Option.some.inj h
    have hr : r0 = r := congrArg Prod.snd h'
    have hb : setCell b r0 c p = b' := congrArg Prod.fst h'
    subst hr
    obtain ⟨h2, h3⟩ := findDrop_some_spec b c r0 hf
    exact ⟨hb.symm, h2, h3⟩

theorem dropPiece_none_iff (b : Board) (c : Fin COLS) (p : Nat) :
    dropPiece b c p = none ↔ ∀ r : Fin ROWS, b r c ≠ 0 := by
  unfold dropPiece
  cases hf : findDrop b c with
  | none => simpa using (findDrop_none_iff b c).mp hf
  | some r0 =>
    simp only [reduceCtorEq, false_iff]
    intro hall
    exact hall r0 (findDrop_some_spec b c r0 hf).1

/-- Claim C1: `dropPiece` lands at the lowest empty row of the column: whenever
column `c` has an empty cell, the drop succeeds, returns a row `r` whose
cell was empty with every row below it (larger index) non-empty, and the
new board is the old one with exactly cell `(r, c)` set to `p`. -/
theorem dropPiece_lands_lowest (b : Board) (c : Fin COLS) (p : Nat)
    (h : ∃ r : Fin ROWS, b r c = 0) :
    ∃ r : Fin ROWS, dropPiece b c p = some (setCell b r c p, r) ∧
      b r c = 0 ∧ ∀ r' : Fin ROWS, r.val < r'.val → b r' c ≠ 0 := by
  cases hf : findDrop b c with
  | none =>
    obtain ⟨r, hr⟩ := h
    exact absurd hr ((findDrop_none_iff b c).mp hf r)
  | some r =>
    obtain ⟨h2, h3⟩ := findDrop_some_spec b c r hf
    exact ⟨r, by rw [dropPiece, hf], h2, h3⟩

/-- Witness for C1 at a concrete input: on the empty board a drop into
column 0 lands at the bottom row (row 5). -/
theorem dropPiece_lands_lowest_witness :
    ∃ r : Fin ROWS, dropPiece emptyBoard 0 1 = some (setCell emptyBoard r 0 1, r) ∧
      emptyBoard r 0 = 0 ∧ ∀ r' : Fin ROWS, r.val < r'.val → emptyBoard r' 0 ≠ 0 :=
  dropPiece_lands_lowest emptyBoard 0 1 ⟨5, rfl⟩

/-! ### Filling one column -/

/-- Column `c` has exactly its top `k` cells empty: the cells of rows
`0..k-1` are empty and the cells of rows `k..5` hold pieces. -/
def ColFree (b : Board) (c : Fin COLS) (k : Nat) : Prop :=
  ∀ r : Fin ROWS, b r c = 0 ↔ r.val < k

theorem dropPiece_colFree (b : Board) (c : Fin COLS) (p : Nat) (k : Nat)
    (hp : p ≠ 0) (hk : 0 < k) (hkR : k ≤ ROWS) (hb : ColFree b c k) :
    ∃ b' r, dropPiece b c p = some (b', r) ∧ r.val = k - 1 ∧ ColFree b' c (k - 1) := by
  obtain ⟨r, hdrop, hemp, hmax⟩ :=
    dropPiece_lands_lowest b c p
      ⟨⟨k - 1, by omega⟩, (hb ⟨k - 1, by omega⟩).mpr (show k - 1 < k by omega)⟩
  have hrv : r.val = k - 1 := by
    have h1 : r.val < k := (hb r).mp hemp
    by_contra hne
    have h2 : r.val < k - 1 := by omega
    exact hmax ⟨k - 1, by omega⟩ h2
      ((hb ⟨k - 1, by omega⟩).mpr (show k - 1 < k by omega))
  refine ⟨setCell b r c p, r, hdrop, hrv, ?_⟩
  intro r'
  unfold setCell
  by_cases hc : r' = r ∧ c = c
  · rw [if_pos hc, hc.1]
    constructor
    · intro hc0; exact absurd hc0 hp
    · intro hlt; omega
  · rw [if_neg hc]
    have hr' : r' ≠ r := fun he => hc ⟨he, rfl⟩
    rw [hb r']
    have : r'.val ≠ r.val := fun he => hr' (Fin.ext he)
    omega

theorem dropRep_colFree (c : Fin COLS) (p : Nat) (hp : p ≠ 0) :
    ∀ (n k : Nat) (b : Board), n ≤ k → k ≤ ROWS → ColFree b c k →
      ∃ b', dropRep c p n b = some b' ∧ ColFree b' c (k - n) := by
  intro n
  induction n with
  | zero => intro k b _ _ hb; exact ⟨b, rfl, by simpa using hb⟩
  | succ n ih =>
    intro k b hn hkR hb
    obtain ⟨b1, r, hdrop, _, hb1⟩ := dropPiece_colFree b c p k hp (by omega) hkR hb
    obtain ⟨b', hrep, hb'⟩ := ih (k - 1) b1 (by omega) (by omega) hb1
    refine ⟨b', ?_, by rw [show k - (n + 1) = k - 1 - n by omega]; exact hb'⟩
    unfold dropRep
    rw [hdrop]
    exact hrep

theorem dropRep_full (c : Fin COLS) (p : Nat) (b : Board)
    (hb : ∀ r : Fin ROWS, b r c ≠ 0) :
    ∀ n, 1 ≤ n → dropRep c p n b = none := by
  intro n hn
  match n, hn with
  | m + 1, _ =>
    unfold dropRep
    rw [(dropPiece_none_iff b c p).mpr hb]

theorem dropRep_split (c : Fin COLS) (p : Nat) :
    ∀ (n m : Nat) (b : Board), dropRep c p (n + m) b =
      match dropRep c p n b with
      | none => none
      | some b1 => dropRep c p m b1 := by
  intro n
  induction n with
  | zero => intro m b; rw [Nat.zero_add]; simp only [dropRep]
  | succ n ih =>
    intro m b
    rw [show n + 1 + m = (n + m) + 1 by omega]
    cases hdrop : dropPiece b c p with
    | none => simp only [dropRep, hdrop]
    | some x =>
      obtain ⟨b1, r1⟩ := x
      simp only [dropRep, hdrop]
      exact ih m b1

/-- Claim C3: starting from a board whose column `c` is entirely empty,
dropping pieces into `c` succeeds for the first 6 attempts and fails
(column full) on the 7th and every later attempt. -/
theorem column_full_after_six (b : Board) (c : Fin COLS) (p : Nat)
    (hp : p ≠ 0) (hempty : ∀ r : Fin ROWS, b r c = 0) :
    (∀ n, n ≤ 6 → (dropRep c p n b).isSome = true) ∧
    (∀ n, 7 ≤ n → dropRep c p n b = none) := by
  have hR : ROWS = 6 := rfl
  have hcf : ColFree b c ROWS := fun r => ⟨fun _ => r.isLt, fun _ => hempty r⟩
  constructor
  · intro n hn
    obtain ⟨b', hrep, _⟩ := dropRep_colFree c p hp n ROWS b (by omega) le_rfl hcf
    rw [hrep]; rfl
  · intro n hn
    obtain ⟨b6, hrep6, hb6⟩ := dropRep_colFree c p hp 6 ROWS b (by omega) le_rfl hcf
    have hfull : ∀ r : Fin ROWS, b6 r c ≠ 0 := by
      intro r hr0
      have := (hb6 r).mp hr0
      omega
    rw [show n = 6 + (n - 6) by omega, dropRep_split, hrep6]
    exact dropRep_full c p b6 hfull (n - 6) (by omega)

/-- Witness for C3: on the empty board, 6 drops into column 0 succeed and
the 7th fails. -/
theorem column_full_after_six_witness :
    (dropRep 0 1 6 emptyBoard).isSome = true ∧ dropRep 0 1 7 emptyBoard = none :=
  ⟨(column_full_after_six emptyBoard 0 1 (by decide) (fun _ => rfl)).1 6 (by decide),
   (column_full_after_six emptyBoard 0 1 (by decide) (fun _ => rfl)).2 7 (by decide)⟩

/-- Claim C4: an input line that does not parse to a number, or whose 0-based
column index falls outside `[0, 7)`, leaves the whole game state
unchanged: same grid, same active player, still awaiting input. -/
theorem step_invalid_input (s : GameState) (input : Option Int)
    (h : s.playing = true)
    (hbad : input = none ∨
      ∃ n : Int, input = some n ∧ (n - 1 < 0 ∨ (COLS : Int) ≤ n - 1)) :
    step s input = s := by
  rcases hbad with hn | ⟨n, hn, hout⟩
  · subst hn; simp [step, parseCol, h]
  · subst hn
    have hp : parseCol (some n) = none := by
      simp only [parseCol]
      rw [dif_neg]
      omega
    simp [step, h, hp]

/-- Witness for C4: requesting column 9 (Scenario D) changes nothing. -/
theorem step_invalid_input_witness :
    step { board := emptyBoard, currentPlayer := 1, playing := true } (some 9) =
      { board := emptyBoard, currentPlayer := 1, playing := true } :=
  step_invalid_input _ (some 9) rfl (Or.inr ⟨9, rfl, by decide⟩)

/-- Claim C5: a syntactically valid column whose 6 cells are all occupied makes
the drop fail; the grid and the active player are unchanged and the turn
does not toggle. -/
theorem step_column_full (s : GameState) (c : Fin COLS)
    (h : s.playing = true) (hfull : ∀ r : Fin ROWS, s.board r c ≠ 0) :
    step s (some ((c : Int) + 1)) = s := by
  have hc7 : c.val < COLS := c.isLt
  have hparse : parseCol (some ((c : Int) + 1)) = some c := by
    simp only [parseCol]
    rw [dif_pos ⟨by omega, by omega⟩]
    congr 1
    apply Fin.ext
    show ((c : Int) + 1 - 1).toNat = c.val
    omega
  have hdrop : dropPiece s.board c s.currentPlayer = none :=
    (dropPiece_none_iff _ _ _).mpr hfull
  simp [step, h, hparse, hdrop]

/-- Witness for C5: with column 2 full (Scenario E), asking for column 2
again (input "3") changes nothing. -/
theorem step_column_full_witness :
    step { board := fullCol2, currentPlayer := 1, playing := true }
        (some (((2 : Fin COLS) : Int) + 1)) =
      { board := fullCol2, currentPlayer := 1, playing := true } :=
  step_column_full _ 2 rfl (by decide)

/-- Once `playing` is false, `askMove` only closes the interface. -/
theorem step_gameover (s : GameState) (h : s.playing = false)
    (input : Option Int) : step s input = s := by
  simp [step, h]

/-- Claim C8: once the game is over, no sequence of further input lines changes
the state: the grid is never mutated again and no move is accepted. -/
theorem gameover_frozen (s : GameState) (h : s.playing = false) :
    ∀ inputs : List (Option Int), runSteps s inputs = s := by
  intro inputs
  induction inputs with
  | nil => rfl
  | cons i is ih => rw [runSteps, step_gameover s h]; exact ih

/-- Witness for C8 at a concrete terminal state and input sequence. -/
theorem gameover_frozen_witness :
    runSteps { board := fullCol2, currentPlayer := 1, playing := false }
        [some 1, some 3, none, some 9] =
      { board := fullCol2, currentPlayer := 1, playing := false } :=
  gameover_frozen _ rfl [some 1, some 3, none, some 9]

/-- Claim C6: `isBoardFull` is true iff every one of the 42 cells is non-empty. -/
theorem isBoardFull_iff (b : Board) :
    isBoardFull b = true ↔ ∀ (r : Fin ROWS) (c : Fin COLS), b r c ≠ 0 := by
  simp [isBoardFull]

/-! ### Win detection: `countDirection` counts the maximal matching run -/

theorem countLoop_ok (b : Board) (p : Nat) (dr dc : Int) :
    ∀ (fuel : Nat) (r c : Int) (i : Nat), i < countLoop b p dr dc fuel r c →
      cellOk b p (r + i * dr) (c + i * dc) := by
  intro fuel
  induction fuel with
  | zero => intro r c i hi; simp [countLoop] at hi
  | succ fuel ih =>
    intro r c i hi
    rw [countLoop] at hi
    by_cases hok : cellOk b p r c
    · rw [if_pos hok] at hi
      cases i with
      | zero => simpa using hok
      | succ j =>
        have hj : j < countLoop b p dr dc fuel (r + dr) (c + dc) := by omega
        have hstep := ih (r + dr) (c + dc) j hj
        have hcast : ((j + 1 : Nat) : Int) = (j : Int) + 1 := by push_cast; ring
        rw [hcast,
            show r + ((j : Int) + 1) * dr = r + dr + (j : Int) * dr by ring,
            show c + ((j : Int) + 1) * dc = c + dc + (j : Int) * dc by ring]
        exact hstep
    · rw [if_neg hok] at hi
      omega

theorem countLoop_stop (b : Board) (p : Nat) (dr dc : Int) :
    ∀ (fuel : Nat) (r c : Int), countLoop b p dr dc fuel r c < fuel →
      ¬ cellOk b p (r + (countLoop b p dr dc fuel r c : Int) * dr)
          (c + (countLoop b p dr dc fuel r c : Int) * dc) := by
  intro fuel
  induction fuel with
  | zero => intro r c h; omega
  | succ fuel ih =>
    intro r c h
    by_cases hok : cellOk b p r c
    · rw [countLoop, if_pos hok] at h ⊢
      have hm : countLoop b p dr dc fuel (r + dr) (c + dc) < fuel := by omega
      have hstop := ih (r + dr) (c + dc) hm
      have hcast : ((countLoop b p dr dc fuel (r + dr) (c + dc) + 1 : Nat) : Int) =
          (countLoop b p dr dc fuel (r + dr) (c + dc) : Int) + 1 := by push_cast; ring
      rw [hcast,
          show r + ((countLoop b p dr dc fuel (r + dr) (c + dc) : Int) + 1) * dr =
            r + dr + (countLoop b p dr dc fuel (r + dr) (c + dc) : Int) * dr by ring,
          show c + ((countLoop b p dr dc fuel (r + dr) (c + dc) : Int) + 1) * dc =
            c + dc + (countLoop b p dr dc fuel (r + dr) (c + dc) : Int) * dc by ring]
      exact hstop
    · rw [countLoop, if_neg hok]
      simpa using hok

theorem countDirection_ok (b : Board) (row col dr dc : Int) (p : Nat) :
    ∀ i : Int, 1 ≤ i → i ≤ (countDirection b row col dr dc p : Int) →
      cellOk b p (row + i * dr) (col + i * dc) := by
  intro i h1 h2
  unfold countDirection at h2
  have hj : (i - 1).toNat < countLoop b p dr dc (ROWS + COLS) (row + dr) (col + dc) := by
    omega
  have hok := countLoop_ok b p dr dc (ROWS + COLS) (row + dr) (col + dc) (i - 1).toNat hj
  have hcast : (((i - 1).toNat : Nat) : Int) = i - 1 := by omega
  rw [hcast,
      show row + dr + (i - 1) * dr = row + i * dr by ring,
      show col + dc + (i - 1) * dc = col + i * dc by ring] at hok
  exact hok

theorem countDirection_stop (b : Board) (row col dr dc : Int) (p : Nat)
    (h : countDirection b row col dr dc p < ROWS + COLS) :
    ¬ cellOk b p (row + ((countDirection b row col dr dc p : Int) + 1) * dr)
        (col + ((countDirection b row col dr dc p : Int) + 1) * dc) := by
  unfold countDirection at h ⊢
  have hstop := countLoop_stop b p dr dc (ROWS + COLS) (row + dr) (col + dc) h
  rw [show row + ((countLoop b p dr dc (ROWS + COLS) (row + dr) (col + dc) : Int) + 1) * dr =
        row + dr + (countLoop b p dr dc (ROWS + COLS) (row + dr) (col + dc) : Int) * dr
      by ring,
      show col + ((countLoop b p dr dc (ROWS + COLS) (row + dr) (col + dc) : Int) + 1) * dc =
        col + dc + (countLoop b p dr dc (ROWS + COLS) (row + dr) (col + dc) : Int) * dc
      by ring]
  exact hstop

/-- The per-direction count of `checkWin` reaches 4 exactly when a
4-window of matching cells through the placed cell exists along that
direction. -/
theorem count_iff_window (b : Board) (row col dr dc : Int) (p : Nat)
    (hc : cellOk b p row col) :
    4 ≤ 1 + countDirection b row col dr dc p + countDirection b row col (-dr) (-dc) p ↔
    ∃ a : Int, a ≤ 0 ∧ 0 ≤ a + 3 ∧
      ∀ i : Int, a ≤ i → i ≤ a + 3 → cellOk b p (row + i * dr) (col + i * dc) := by
  constructor
  · intro h4
    refine ⟨-(min (countDirection b row col (-dr) (-dc) p : Int) 3), by omega, by omega, ?_⟩
    intro i hi1 hi2
    rcases lt_trichotomy i 0 with hneg | hzero | hpos
    · have hub : -i ≤ (countDirection b row col (-dr) (-dc) p : Int) := by omega
      have hok := countDirection_ok b row col (-dr) (-dc) p (-i) (by omega) hub
      rw [show row + -i * -dr = row + i * dr by ring,
          show col + -i * -dc = col + i * dc by ring] at hok
      exact hok
    · rw [hzero]
      simpa using hc
    · have hub : i ≤ (countDirection b row col dr dc p : Int) := by omega
      exact countDirection_ok b row col dr dc p i (by omega) hub
  · rintro ⟨a, ha0, ha3, hall⟩
    have h13 : ROWS + COLS = 13 := rfl
    have hpos : (a + 3 : Int) ≤ (countDirection b row col dr dc p : Int) := by
      by_contra hlt
      push_neg at hlt
      have hfuel : countDirection b row col dr dc p < ROWS + COLS := by omega
      have hstop := countDirection_stop b row col dr dc p hfuel
      exact hstop (hall ((countDirection b row col dr dc p : Int) + 1)
        (by omega) (by omega))
    have hneg : (-a : Int) ≤ (countDirection b row col (-dr) (-dc) p : Int) := by
      by_contra hlt
      push_neg at hlt
      have hfuel : countDirection b row col (-dr) (-dc) p < ROWS + COLS := by omega
      have hstop := countDirection_stop b row col (-dr) (-dc) p hfuel
      have hcell := hall (-((countDirection b row col (-dr) (-dc) p : Int) + 1))
        (by omega) (by omega)
      rw [show row + -((countDirection b row col (-dr) (-dc) p : Int) + 1) * dr =
            row + ((countDirection b row col (-dr) (-dc) p : Int) + 1) * -dr by ring,
          show col + -((countDirection b row col (-dr) (-dc) p : Int) + 1) * dc =
            col + ((countDirection b row col (-dr) (-dc) p : Int) + 1) * -dc by ring]
        at hcell
      exact hstop hcell
    omega

/-- Reading a cell at in-range `Fin` coordinates. -/
theorem getCell_fin (b : Board) (r : Fin ROWS) (c : Fin COLS) :
    getCell b (r : Int) (c : Int) = b r c := by
  have h1 := r.isLt
  have h2 := c.isLt
  unfold getCell
  rw [dif_pos ⟨by omega, by omega, by omega, by omega⟩]
  congr 1

/-- Claim C2: for a just-placed cell (`b row col = p`), `checkWin` returns true
iff some direction carries at least 4 contiguous cells equal to `p`
through `(row, col)`. -/
theorem checkWin_iff_window (b : Board) (row : Fin ROWS) (col : Fin COLS) (p : Nat)
    (h : b row col = p) :
    checkWin b (row : Int) (col : Int) p = true ↔
      hasWindow b (row : Int) (col : Int) p := by
  have h1 := row.isLt
  have h2 := col.isLt
  have hc : cellOk b p (row : Int) (col : Int) :=
    ⟨by omega, by omega, by omega, by omega, by rw [getCell_fin]; exact h⟩
  unfold checkWin hasWindow
  simp only [List.any_eq_true, decide_eq_true_eq]
  constructor
  · rintro ⟨d, hd, h4⟩
    exact ⟨d, hd, (count_iff_window b _ _ d.1 d.2 p hc).mp h4⟩
  · rintro ⟨d, hd, hw⟩
    exact ⟨d, hd, (count_iff_window b _ _ d.1 d.2 p hc).mpr hw⟩

/-- Witness for C2 at a concrete input: the bottom row of `winBoard`
holds player 1 at columns 0–3 (Scenario B). -/
theorem checkWin_iff_window_witness :
    checkWin winBoard ((5 : Fin ROWS) : Int) ((3 : Fin COLS) : Int) 1 = true ↔
      hasWindow winBoard ((5 : Fin ROWS) : Int) ((3 : Fin COLS) : Int) 1 :=
  checkWin_iff_window winBoard 5 3 1 (by decide)

theorem toggle_ne (p : Nat) : toggle p ≠ p := by
  unfold toggle
  split <;> omega

/-- Claim C7: after a successful drop the loop checks `checkWin` at the landing
cell first, then `isBoardFull`, and only otherwise toggles the player;
consequently the active player changes exactly when a legal,
non-terminal move was made. -/
theorem step_order_toggle (s : GameState) (input : Option Int)
    (h : s.playing = true) :
    (∀ (c : Fin COLS) (b' : Board) (r : Fin ROWS),
        parseCol input = some c →
        dropPiece s.board c s.currentPlayer = some (b', r) →
        step s input =
          if checkWin b' (r : Int) (c : Int) s.currentPlayer then
            { board := b', currentPlayer := s.currentPlayer, playing := false }
          else if isBoardFull b' then
            { board := b', currentPlayer := s.currentPlayer, playing := false }
          else
            { board := b', currentPlayer := toggle s.currentPlayer, playing := true }) ∧
    ((step s input).currentPlayer ≠ s.currentPlayer ↔
      ∃ (c : Fin COLS) (b' : Board) (r : Fin ROWS),
        parseCol input = some c ∧
        dropPiece s.board c s.currentPlayer = some (b', r) ∧
        checkWin b' (r : Int) (c : Int) s.currentPlayer = false ∧
        isBoardFull b' = false) := by
  constructor
  · intro c b' r hparse hdrop
    simp [step, h, hparse, hdrop]
  · cases hparse : parseCol input with
    | none =>
      simp only [step, h, if_true, hparse]
      simp
    | some c0 =>
      cases hdrop : dropPiece s.board c0 s.currentPlayer with
      | none =>
        simp only [step, h, if_true, hparse, hdrop]
        simp only [ne_eq, not_true_eq_false, false_iff, not_exists]
        intro c b' r
        rintro ⟨hc, hd, -⟩
        rw [Option.some.inj hc] at hdrop
        rw [hdrop] at hd
        exact absurd hd (by simp)
      | some x =>
        obtain ⟨b1, r1⟩ := x
        simp only [step, h, if_true, hparse, hdrop]
        by_cases hwin : checkWin b1 (r1 : Int) (c0 : Int) s.currentPlayer
        · rw [if_pos hwin]
          simp only [ne_eq, not_true_eq_false, false_iff, not_exists]
          intro c b' r
          rintro ⟨hc, hd, hw, -⟩
          rw [Option.some.inj hc] at hdrop
          rw [hdrop] at hd
          have h1 : b1 = b' := congrArg Prod.fst (Option.some.inj hd)
          have h2 : r1 = r := congrArg Prod.snd (Option.some.inj hd)
          rw [Option.some.inj hc, h1, h2] at hwin
          rw [hw] at hwin
          exact Bool.false_ne_true hwin
        · rw [if_neg hwin]
          by_cases hfull : isBoardFull b1 = true
          · rw [if_pos hfull]
            simp only [ne_eq, not_true_eq_false, false_iff, not_exists]
            intro c b' r
            rintro ⟨hc, hd, -, hf⟩
            rw [Option.some.inj hc] at hdrop
            rw [hdrop] at hd
            have h1 : b1 = b' := congrArg Prod.fst (Option.some.inj hd)
            rw [h1, hf] at hfull
            exact Bool.false_ne_true hfull
          · rw [if_neg hfull]
            simp only [ne_eq]
            constructor
            · intro _
              exact ⟨c0, b1, r1, rfl, hdrop, Bool.not_eq_true _ ▸ hwin,
                Bool.not_eq_true _ ▸ hfull⟩
            · intro _
              exact toggle_ne s.currentPlayer

/-- Witness for C7: on the empty board, player 1 drops into column 1 (a
legal, non-terminal move) and the active player changes. -/
theorem step_order_toggle_witness :
    (step { board := emptyBoard, currentPlayer := 1, playing := true }
        (some 1)).currentPlayer ≠ (1 : Nat) :=
  (step_order_toggle { board := emptyBoard, currentPlayer := 1, playing := true }
      (some 1) rfl).2.mpr
    ⟨0, setCell emptyBoard 5 0 1, 5, rfl, rfl, by decide, by decide⟩

/-! ### Gravity -/

/-- No piece floats: any cell directly below a non-empty cell (same
column, next larger row index) is itself non-empty. -/
def Supported (b : Board) : Prop :=
  ∀ (r : Fin ROWS) (c : Fin COLS) (h : r.val + 1 < ROWS),
    b r c ≠ 0 → b ⟨r.val + 1, h⟩ c ≠ 0

/-- Boards reachable from the empty board by a sequence of (successful)
drop operations. -/
inductive Reachable : Board → Prop
  | init : Reachable emptyBoard
  | drop (b : Board) (c : Fin COLS) (p : Nat) (b' : Board) (r : Fin ROWS) :
      Reachable b → dropPiece b c p = some (b', r) → Reachable b'

/-- Claim C9: every board reachable from the empty board by drop operations
satisfies the gravity invariant. -/
theorem reachable_supported (b : Board) (h : Reachable b) : Supported b := by
  induction h with
  | init => intro r c hh hne; exact absurd rfl hne
  | drop b0 c p b' r hreach hdrop ih =>
    obtain ⟨hb', hempty, hbelow⟩ := dropPiece_some_spec b0 c p b' r hdrop
    subst hb'
    intro r1 c1 hh hne
    by_cases htop : r1 = r ∧ c1 = c
    · obtain ⟨h1, h2⟩ := htop
      subst h1; subst h2
      simp only [setCell]
      rw [if_neg]
      · exact hbelow ⟨r1.val + 1, hh⟩ (Nat.lt_succ_self _)
      · rintro ⟨he, -⟩
        have : r1.val + 1 = r1.val := congrArg Fin.val he
        omega
    · simp only [setCell] at hne
      rw [if_neg htop] at hne
      by_cases hcell : (⟨r1.val + 1, hh⟩ : Fin ROWS) = r ∧ c1 = c
      · exfalso
        have h2 := ih r1 c1 hh hne
        rw [hcell.1, hcell.2] at h2
        exact h2 hempty
      · simp only [setCell]
        rw [if_neg hcell]
        exact ih r1 c1 hh hne

/-- Witness for C9: the board after one drop into column 0 satisfies the
gravity invariant. -/
theorem reachable_supported_witness : Supported (setCell emptyBoard 5 0 1) :=
  reachable_supported _
    (Reachable.drop emptyBoard 0 1 _ 5 Reachable.init rfl)

/-- Claim C10: `checkWin` never tests the cell at `(row, col)` itself: on
`rowBoard` the cell `(5, 3)` holds player 2, yet with three contiguous
player-1 cells at `(5, 0)`, `(5, 1)`, `(5, 2)` next to it,
`checkWin(5, 3, 1)` still returns true. -/
theorem checkWin_ignores_center :
    rowBoard 5 3 = 2 ∧ rowBoard 5 0 = 1 ∧ rowBoard 5 1 = 1 ∧ rowBoard 5 2 = 1 ∧
      checkWin rowBoard 5 3 1 = true := by decide

end Conecta4
